import Mathlib

/-!
Verification of the markdown-to-Google-Docs compiler of gogcli
(`internal/markdown/markdown.go`) and of the docs plain-text extraction
helpers (`docsPlainText` / `appendDocsElementText` / `appendLimited` in
`internal/cmd`).

The markdown parser itself (goldmark) is an external collaborator: the
compiler consumes an already-parsed tree and produces a flattened plain
text plus a list of range-addressed formatting requests.  We embed the
tree walker faithfully: the buffer is a list of characters, the index
unit is the UTF-8 byte length of the buffer (Go's `bytes.Buffer.Len`),
and each `add*Style` helper carries the same degenerate-range guards as
the source.
-/

namespace Gogcli

/-- Formatting request emitted by the walker, a shallow embedding of the
`docs.Request` variants actually constructed in `markdown.go`:
`UpdateParagraphStyle` (headings), `UpdateTextStyle` (bold / italic /
strikethrough / code font / link) and `CreateParagraphBullets`. -/
inductive Request where
  | updateParagraphStyle (startIndex endIndex : Int) (namedStyleType : List Char)
  | updateTextBold (startIndex endIndex : Int)
  | updateTextItalic (startIndex endIndex : Int)
  | updateTextStrikethrough (startIndex endIndex : Int)
  | updateTextCode (startIndex endIndex : Int)
  | updateTextLink (startIndex endIndex : Int) (url : List Char)
  | createParagraphBullets (startIndex endIndex : Int) (bulletPreset : List Char)
deriving DecidableEq

/-- Start of the half-open range of a request. -/
def Request.startIndex : Request → Int
  | .updateParagraphStyle s _ _ => s
  | .updateTextBold s _ => s
  | .updateTextItalic s _ => s
  | .updateTextStrikethrough s _ => s
  | .updateTextCode s _ => s
  | .updateTextLink s _ _ => s
  | .createParagraphBullets s _ _ => s

/-- End of the half-open range of a request. -/
def Request.endIndex : Request → Int
  | .updateParagraphStyle _ e _ => e
  | .updateTextBold _ e => e
  | .updateTextItalic _ e => e
  | .updateTextStrikethrough _ e => e
  | .updateTextCode _ e => e
  | .updateTextLink _ e _ => e
  | .createParagraphBullets _ e _ => e

/-- A link request never carries an empty URL; other requests impose
nothing. -/
def Request.linkUrlOK : Request → Prop
  | .updateTextLink _ _ u => u ≠ []
  | _ => True

instance : DecidablePred Request.linkUrlOK := by
  intro r
  cases r <;> simp [Request.linkUrlOK] <;> infer_instance

/-- UTF-8 byte length of a character list; this is what Go's
`bytes.Buffer.Len()` returns for the accumulated plain text. -/
def utf8Len (cs : List Char) : Nat := (cs.map Char.utf8Size).sum

/-- Mutable state of the tree walker (`type walker` in `markdown.go`),
minus the immutable `source`/`baseIndex` fields which we pass as
parameters. -/
structure Walker where
  buf : List Char
  requests : List Request
  paragraphStart : Int
  inList : Bool
  listOrdered : Bool
deriving DecidableEq

/-- Append text to the output buffer (`buf.WriteString` / `buf.Write`). -/
def write (w : Walker) (s : List Char) : Walker := { w with buf := w.buf ++ s }

/-- The cursor (`walker.currentIndex`): `baseIndex + buf.Len()`, where
`buf.Len()` is the UTF-8 byte count of the buffer. -/
def currentIndex (baseIndex : Int) (w : Walker) : Int :=
  baseIndex + (utf8Len w.buf : Int)

/-- Named style for a heading level (`addHeadingStyle`'s switch); levels
outside 1–6 fall back to the initial `HEADING_1`. -/
def headingNamedStyle (level : Nat) : List Char :=
  match level with
  | 1 => "HEADING_1".toList
  | 2 => "HEADING_2".toList
  | 3 => "HEADING_3".toList
  | 4 => "HEADING_4".toList
  | 5 => "HEADING_5".toList
  | 6 => "HEADING_6".toList
  | _ => "HEADING_1".toList

/-- `walker.addHeadingStyle`: skip degenerate ranges, else append an
`UpdateParagraphStyle` request. -/
def addHeadingStyle (start stop : Int) (level : Nat) (w : Walker) : Walker :=
  if stop ≤ start then w
  else { w with requests :=
          w.requests ++ [.updateParagraphStyle start stop (headingNamedStyle level)] }

/-- `walker.addBoldStyle`. -/
def addBoldStyle (start stop : Int) (w : Walker) : Walker :=
  if stop ≤ start then w
  else { w with requests := w.requests ++ [.updateTextBold start stop] }

/-- `walker.addItalicStyle`. -/
def addItalicStyle (start stop : Int) (w : Walker) : Walker :=
  if stop ≤ start then w
  else { w with requests := w.requests ++ [.updateTextItalic start stop] }

/-- `walker.addStrikethroughStyle`. -/
def addStrikethroughStyle (start stop : Int) (w : Walker) : Walker :=
  if stop ≤ start then w
  else { w with requests := w.requests ++ [.updateTextStrikethrough start stop] }

/-- `walker.addCodeStyle` (monospace font request). -/
def addCodeStyle (start stop : Int) (w : Walker) : Walker :=
  if stop ≤ start then w
  else { w with requests := w.requests ++ [.updateTextCode start stop] }

/-- `walker.addLinkStyle`: degenerate ranges and empty URLs are both
discarded. -/
def addLinkStyle (start stop : Int) (url : List Char) (w : Walker) : Walker :=
  if stop ≤ start ∨ url = [] then w
  else { w with requests := w.requests ++ [.updateTextLink start stop url] }

/-- Bullet preset used by `walker.addBulletRequest`. -/
def bulletPresetFor (ordered : Bool) : List Char :=
  if ordered then "NUMBERED_DECIMAL_ALPHA_ROMAN".toList
  else "BULLET_DISC_CIRCLE_SQUARE".toList

/-- `walker.addBulletRequest`: skip degenerate ranges, else append a
`CreateParagraphBullets` request with the preset for the ordered flag. -/
def addBulletRequest (start stop : Int) (ordered : Bool) (w : Walker) : Walker :=
  if stop ≤ start then w
  else { w with requests :=
          w.requests ++ [.createParagraphBullets start stop (bulletPresetFor ordered)] }

/-- Parsed markdown tree node, the goldmark AST variants the walker's
type switch distinguishes.  Text segments are already resolved to their
character content (segments of the immutable source). -/
inductive Node where
  | document (children : List Node)
  | heading (level : Nat) (children : List Node)
  | paragraph (children : List Node)
  | listNode (ordered : Bool) (children : List Node)
  | listItem (children : List Node)
  | textBlock (children : List Node)
  | textNode (content : List Char) (softLineBreak hardLineBreak : Bool)
  | stringNode (value : List Char)
  | emphasis (level : Nat) (children : List Node)
  | strikethroughNode (children : List Node)
  | linkNode (destination : List Char) (children : List Node)
  | autoLink (url : List Char)
  | codeSpan (children : List Node)
  | fencedCodeBlock (lines : List (List Char))
  | codeBlock (lines : List (List Char))
  | thematicBreak
  | blockquote (children : List Node)
  | htmlBlock
  | rawHTML
  | image (children : List Node)

/-- Concatenated content of the `ast.Text` children of a node, as
collected by the `CodeSpan` and `Image` cases of the walker (non-text
children are skipped). -/
def textChildrenContent : List Node → List Char
  | [] => []
  | .textNode c _ _ :: rest => c ++ textChildrenContent rest
  | _ :: rest => textChildrenContent rest

/-- Concatenation of the raw source lines of a code block. -/
def joinLines : List (List Char) → List Char
  | [] => []
  | l :: ls => l ++ joinLines ls

/-- The fixed rule line written for a thematic break: 39 box-drawing
dashes and a newline. -/
def thematicBreakText : List Char := List.replicate 39 '─' ++ ['\n']

/-- One step of `applyInlineFormatting`'s ancestor loop: the walk from
the leaf's parent to the root, adding italic/bold/strikethrough requests
as it meets `Emphasis`/`Strikethrough` ancestors and overwriting the
pending link URL at every `Link` ancestor. -/
def inlineLoop (start stop : Int) :
    List Node → Walker → List Char → Walker × List Char
  | [], w, linkURL => (w, linkURL)
  | p :: rest, w, linkURL =>
    match p with
    | .emphasis level _ =>
        if level = 1 then inlineLoop start stop rest (addItalicStyle start stop w) linkURL
        else if 2 ≤ level then inlineLoop start stop rest (addBoldStyle start stop w) linkURL
        else inlineLoop start stop rest w linkURL
    | .strikethroughNode _ =>
        inlineLoop start stop rest (addStrikethroughStyle start stop w) linkURL
    | .linkNode destination _ => inlineLoop start stop rest w destination
    | _ => inlineLoop start stop rest w linkURL

/-- `walker.applyInlineFormatting`: empty leaves emit nothing; otherwise
walk the ancestor chain and finally emit one link request if the
resolved URL is non-empty. -/
def applyInlineFormatting (anc : List Node) (start stop : Int) (w : Walker) : Walker :=
  if stop ≤ start then w
  else if (inlineLoop start stop anc w []).2 ≠ [] then
    addLinkStyle start stop (inlineLoop start stop anc w []).2 (inlineLoop start stop anc w []).1
  else (inlineLoop start stop anc w []).1

/-- Destination of the last `Link` in an ancestor chain (ordered from
the leaf's parent upward), with a default for chains without links.
This names the value the ancestor loop's repeated overwriting leaves in
`linkURL`: the outermost link wins, not the closest one. -/
def lastLinkDestFrom (dflt : List Char) : List Node → List Char
  | [] => dflt
  | .linkNode destination _ :: rest => lastLinkDestFrom destination rest
  | _ :: rest => lastLinkDestFrom dflt rest

/-- Destination of the outermost `Link` ancestor, empty when none. -/
def lastLinkDest (anc : List Node) : List Char := lastLinkDestFrom [] anc

mutual
/-- The walker's `walk` callback, written as a pre-order-enter /
post-order-exit recursion: each case performs the source's `entering`
effects, recurses into the children (extending the ancestor chain used
for inline style resolution), then performs the `!entering` effects.
`CodeSpan` and `Image` skip their children (`WalkSkipChildren`) and
instead copy the text children's content directly. -/
def walkNode (baseIndex : Int) (anc : List Node) (w : Walker) (n : Node) : Walker :=
  match n with
  | .document children => walkList baseIndex (.document children :: anc) w children
  | .heading level children =>
      let w1 := { w with paragraphStart := currentIndex baseIndex w }
      let w2 := walkList baseIndex (.heading level children :: anc) w1 children
      let w3 := write w2 ['\n']
      addHeadingStyle w3.paragraphStart (currentIndex baseIndex w3) level w3
  | .paragraph children =>
      let w1 := { w with paragraphStart := currentIndex baseIndex w }
      let w2 := walkList baseIndex (.paragraph children :: anc) w1 children
      let w3 := write w2 ['\n']
      if w3.inList then
        addBulletRequest w3.paragraphStart (currentIndex baseIndex w3) w3.listOrdered w3
      else w3
  | .listNode ordered children =>
      let w1 := { w with inList := true, listOrdered := ordered }
      let w2 := walkList baseIndex (.listNode ordered children :: anc) w1 children
      { w2 with inList := false }
  | .listItem children => walkList baseIndex (.listItem children :: anc) w children
  | .textBlock children =>
      let w1 := walkList baseIndex (.textBlock children :: anc) w children
      write w1 ['\n']
  | .textNode content softLineBreak hardLineBreak =>
      let start := currentIndex baseIndex w
      let w1 := write w content
      let stop := currentIndex baseIndex w1
      let w2 := applyInlineFormatting anc start stop w1
      let w3 := if softLineBreak then write w2 [' '] else w2
      if hardLineBreak then write w3 ['\n'] else w3
  | .stringNode value => write w value
  | .emphasis level children =>
      walkList baseIndex (.emphasis level children :: anc) w children
  | .strikethroughNode children =>
      walkList baseIndex (.strikethroughNode children :: anc) w children
  | .linkNode destination children =>
      walkList baseIndex (.linkNode destination children :: anc) w children
  | .autoLink url =>
      let start := currentIndex baseIndex w
      let w1 := write w url
      let stop := currentIndex baseIndex w1
      addLinkStyle start stop url w1
  | .codeSpan children =>
      let start := currentIndex baseIndex w
      let w1 := write w (textChildrenContent children)
      let stop := currentIndex baseIndex w1
      addCodeStyle start stop w1
  | .fencedCodeBlock lines =>
      let start := currentIndex baseIndex w
      let w1 := write w (joinLines lines)
      let stop := currentIndex baseIndex w1
      let w2 := write w1 ['\n']
      addCodeStyle start stop w2
  | .codeBlock lines =>
      let start := currentIndex baseIndex w
      let w1 := write w (joinLines lines)
      let stop := currentIndex baseIndex w1
      let w2 := write w1 ['\n']
      addCodeStyle start stop w2
  | .thematicBreak => write w thematicBreakText
  | .blockquote children =>
      walkList baseIndex (.blockquote children :: anc) w children
  | .htmlBlock => w
  | .rawHTML => w
  | .image children => write w ('[' :: (textChildrenContent children ++ [']']))
termination_by structural n

/-- Walk a list of sibling nodes left to right, threading the state. -/
def walkList (baseIndex : Int) (anc : List Node) (w : Walker) (l : List Node) : Walker :=
  match l with
  | [] => w
  | c :: cs => walkList baseIndex anc (walkNode baseIndex anc w c) cs
termination_by structural l
end

/-- Zero value of the walker state at the start of `Parse`. -/
def initialWalker : Walker :=
  { buf := [], requests := [], paragraphStart := 0, inList := false, listOrdered := false }

/-- The `Result` returned by `markdown.Parse`. -/
structure Result where
  plainText : List Char
  requests : List Request
deriving DecidableEq

/-- `markdown.Parse`, taken from the point where the externally parsed
tree is walked: run the walker from the zero state, then append a final
newline when the text is non-empty and does not already end in one. -/
def Parse (root : Node) (baseIndex : Int) : Result :=
  let w := walkNode baseIndex [] initialWalker root
  let plainText :=
    if w.buf.getLast? ≠ some '\n' ∧ w.buf ≠ [] then w.buf ++ ['\n'] else w.buf
  { plainText := plainText, requests := w.requests }

mutual
/-- Whether a node makes the walker write at least one character to the
buffer: block nodes that always append a newline or fixed glyphs, leaf
nodes with non-empty content, or any child that does. -/
def hasText (n : Node) : Bool :=
  match n with
  | .document children => hasTextList children
  | .heading _ _ => true
  | .paragraph _ => true
  | .listNode _ children => hasTextList children
  | .listItem children => hasTextList children
  | .textBlock _ => true
  | .textNode content softLineBreak hardLineBreak =>
      !content.isEmpty || softLineBreak || hardLineBreak
  | .stringNode value => !value.isEmpty
  | .emphasis _ children => hasTextList children
  | .strikethroughNode children => hasTextList children
  | .linkNode _ children => hasTextList children
  | .autoLink url => !url.isEmpty
  | .codeSpan children => !(textChildrenContent children).isEmpty
  | .fencedCodeBlock _ => true
  | .codeBlock _ => true
  | .thematicBreak => true
  | .blockquote children => hasTextList children
  | .htmlBlock => false
  | .rawHTML => false
  | .image _ => true
termination_by structural n

/-- Whether any node of a list produces text. -/
def hasTextList (l : List Node) : Bool :=
  match l with
  | [] => false
  | c :: cs => hasText c || hasTextList cs
termination_by structural l
end

mutual
/-- Structural element of a fetched Google Doc body, as far as
`appendDocsElementText` inspects it: a paragraph is its list of
elements, each optionally a text run carried as its raw UTF-8 bytes; a
table is its rows; a table of contents nests further elements; anything
else contributes nothing. -/
inductive DocElement where
  | docParagraph (runs : List (Option (List Nat)))
  | docTable (rows : List DocRow)
  | docTOC (content : List DocElement)
  | docOther

/-- A table row: its list of cells. -/
inductive DocRow where
  | row (cells : List DocCell)

/-- A table cell: its list of structural elements. -/
inductive DocCell where
  | cell (content : List DocElement)
end

/-- `appendLimited`: with a non-positive budget append everything;
otherwise stop once the buffer has reached the budget
(`remaining = maxBytes - buf.Len()`), and cut the string at the
remaining byte count (a raw byte slice `s[:remaining]`) when it does
not fit.  Returns the new buffer and whether traversal may continue. -/
def appendLimited (buf : List Nat) (maxBytes : Int) (s : List Nat) : List Nat × Bool :=
  if maxBytes ≤ 0 then (buf ++ s, true)
  else if maxBytes - (buf.length : Int) ≤ 0 then (buf, false)
  else if maxBytes - (buf.length : Int) < (s.length : Int) then
    (buf ++ s.take (maxBytes - (buf.length : Int)).toNat, false)
  else (buf ++ s, true)

/-- Sequence one append step with the rest of the traversal, stopping at
the first failure: the shape of the source's
`if !appendX(...) { return false }` chains. -/
def andThen (r : List Nat × Bool) (k : List Nat → List Nat × Bool) : List Nat × Bool :=
  if r.2 then k r.1 else (r.1, false)

mutual
/-- `appendDocsElementText` on one structural element: paragraphs
append their text runs, tables interleave newlines between rows and
tabs between cells around recursively flattened cell content, and a
table of contents recurses into its elements. -/
def appendElement (maxBytes : Int) (buf : List Nat) (el : DocElement) : List Nat × Bool :=
  match el with
  | .docParagraph runs => appendRuns maxBytes buf runs
  | .docTable rows => appendRows maxBytes buf true rows
  | .docTOC content => appendElements maxBytes buf content
  | .docOther => (buf, true)
termination_by structural el

/-- The text runs of one paragraph, in order, stopping at the first
failed append; elements without a text run are skipped. -/
def appendRuns (maxBytes : Int) (buf : List Nat) (runs : List (Option (List Nat))) :
    List Nat × Bool :=
  match runs with
  | [] => (buf, true)
  | none :: rest => appendRuns maxBytes buf rest
  | some content :: rest =>
      andThen (appendLimited buf maxBytes content)
        (fun b2 => appendRuns maxBytes b2 rest)
termination_by structural runs

/-- The rows of a table; every row after the first is preceded by a
newline separator. -/
def appendRows (maxBytes : Int) (buf : List Nat) (firstRow : Bool) (rows : List DocRow) :
    List Nat × Bool :=
  match rows with
  | [] => (buf, true)
  | .row cells :: rest =>
      andThen (if firstRow then (buf, true) else appendLimited buf maxBytes [10])
        (fun b1 => andThen (appendCells maxBytes b1 true cells)
          (fun b2 => appendRows maxBytes b2 false rest))
termination_by structural rows

/-- The cells of one row; every cell after the first is preceded by a
tab separator, and each cell's structural elements are flattened
recursively. -/
def appendCells (maxBytes : Int) (buf : List Nat) (firstCell : Bool) (cells : List DocCell) :
    List Nat × Bool :=
  match cells with
  | [] => (buf, true)
  | .cell content :: rest =>
      andThen (if firstCell then (buf, true) else appendLimited buf maxBytes [9])
        (fun b1 => andThen (appendElements maxBytes b1 content)
          (fun b2 => appendCells maxBytes b2 false rest))
termination_by structural cells

/-- A sequence of structural elements, stopping at the first failed
append; this is both the loop of `docsPlainText` over the body content
and the recursion into cell and table-of-contents content. -/
def appendElements (maxBytes : Int) (buf : List Nat) (els : List DocElement) :
    List Nat × Bool :=
  match els with
  | [] => (buf, true)
  | el :: rest =>
      andThen (appendElement maxBytes buf el)
        (fun b2 => appendElements maxBytes b2 rest)
termination_by structural els
end

/-- `docsPlainText`: flatten a document body (absent bodies yield the
empty string) under the byte budget. -/
def docsPlainText (body : Option (List DocElement)) (maxBytes : Int) : List Nat :=
  match body with
  | none => []
  | some content => (appendElements maxBytes [] content).1

/-- Whether a continuation byte follows a UTF-8 lead byte. -/
def isContinuationByte (b : Nat) : Bool := 128 ≤ b ∧ b < 192

/-- Whether a byte list is a concatenation of complete UTF-8 encoded
code points, i.e. ends on a code-point boundary. -/
def validUtf8 : List Nat → Bool
  | [] => true
  | b :: rest =>
      if b < 128 then validUtf8 rest
      else
        match rest with
        | [] => false
        | c1 :: r1 =>
            if b < 224 then
              decide (192 ≤ b) && isContinuationByte c1 && validUtf8 r1
            else
              match r1 with
              | [] => false
              | c2 :: r2 =>
                  if b < 240 then
                    isContinuationByte c1 && isContinuationByte c2 && validUtf8 r2
                  else
                    match r2 with
                    | [] => false
                    | c3 :: r3 =>
                        decide (b < 248) && isContinuationByte c1 &&
                          isContinuationByte c2 && isContinuationByte c3 && validUtf8 r3

theorem utf8Len_append (a b : List Char) : utf8Len (a ++ b) = utf8Len a + utf8Len b := by
  simp [utf8Len]

/-- Validity of one emitted request against a base index and the byte
length of the buffer: the range sits inside the written span, is
non-degenerate, and link requests carry a non-empty URL. -/
def ReqOK (b : Int) (len : Nat) (r : Request) : Prop :=
  b ≤ r.startIndex ∧ r.startIndex < r.endIndex ∧ r.endIndex ≤ b + (len : Int) ∧ r.linkUrlOK

/-- All requests accumulated so far are valid for the current buffer. -/
def ReqsOK (b : Int) (w : Walker) : Prop := ∀ r ∈ w.requests, ReqOK b (utf8Len w.buf) r

theorem reqsOK_write {b : Int} {w : Walker} (s : List Char) (h : ReqsOK b w) :
    ReqsOK b (write w s) := by
  intro r hr
  have h2 := h r hr
  refine ⟨h2.1, h2.2.1, ?_, h2.2.2.2⟩
  have := h2.2.2.1
  simp only [write, utf8Len_append]
  omega

theorem reqsOK_initial (b : Int) : ReqsOK b initialWalker := by
  intro r hr
  simp [initialWalker] at hr

theorem addHeadingStyle_spec (b start stop : Int) (level : Nat) (w : Walker) :
    (addHeadingStyle start stop level w).buf = w.buf ∧
    (addHeadingStyle start stop level w).paragraphStart = w.paragraphStart ∧
    (b ≤ start → stop ≤ b + (utf8Len w.buf : Int) → ReqsOK b w →
      ReqsOK b (addHeadingStyle start stop level w)) := by
  unfold addHeadingStyle
  split
  · exact ⟨rfl, rfl, fun _ _ h => h⟩
  · refine ⟨rfl, rfl, fun hs he h r hr => ?_⟩
    simp only [List.mem_append, List.mem_singleton] at hr
    rcases hr with hr | hr
    · exact h r hr
    · subst hr
      refine ⟨hs, ?_, he, trivial⟩
      simp only [Request.startIndex, Request.endIndex]
      omega

theorem addBoldStyle_spec (b start stop : Int) (w : Walker) :
    (addBoldStyle start stop w).buf = w.buf ∧
    (addBoldStyle start stop w).paragraphStart = w.paragraphStart ∧
    (b ≤ start → stop ≤ b + (utf8Len w.buf : Int) → ReqsOK b w →
      ReqsOK b (addBoldStyle start stop w)) := by
  unfold addBoldStyle
  split
  · exact ⟨rfl, rfl, fun _ _ h => h⟩
  · refine ⟨rfl, rfl, fun hs he h r hr => ?_⟩
    simp only [List.mem_append, List.mem_singleton] at hr
    rcases hr with hr | hr
    · exact h r hr
    · subst hr
      refine ⟨hs, ?_, he, trivial⟩
      simp only [Request.startIndex, Request.endIndex]
      omega

theorem addItalicStyle_spec (b start stop : Int) (w : Walker) :
    (addItalicStyle start stop w).buf = w.buf ∧
    (addItalicStyle start stop w).paragraphStart = w.paragraphStart ∧
    (b ≤ start → stop ≤ b + (utf8Len w.buf : Int) → ReqsOK b w →
      ReqsOK b (addItalicStyle start stop w)) := by
  unfold addItalicStyle
  split
  · exact ⟨rfl, rfl, fun _ _ h => h⟩
  · refine ⟨rfl, rfl, fun hs he h r hr => ?_⟩
    simp only [List.mem_append, List.mem_singleton] at hr
    rcases hr with hr | hr
    · exact h r hr
    · subst hr
      refine ⟨hs, ?_, he, trivial⟩
      simp only [Request.startIndex, Request.endIndex]
      omega

theorem addStrikethroughStyle_spec (b start stop : Int) (w : Walker) :
    (addStrikethroughStyle start stop w).buf = w.buf ∧
    (addStrikethroughStyle start stop w).paragraphStart = w.paragraphStart ∧
    (b ≤ start → stop ≤ b + (utf8Len w.buf : Int) → ReqsOK b w →
      ReqsOK b (addStrikethroughStyle start stop w)) := by
  unfold addStrikethroughStyle
  split
  · exact ⟨rfl, rfl, fun _ _ h => h⟩
  · refine ⟨rfl, rfl, fun hs he h r hr => ?_⟩
    simp only [List.mem_append, List.mem_singleton] at hr
    rcases hr with hr | hr
    · exact h r hr
    · subst hr
      refine ⟨hs, ?_, he, trivial⟩
      simp only [Request.startIndex, Request.endIndex]
      omega

theorem addCodeStyle_spec (b start stop : Int) (w : Walker) :
    (addCodeStyle start stop w).buf = w.buf ∧
    (addCodeStyle start stop w).paragraphStart = w.paragraphStart ∧
    (b ≤ start → stop ≤ b + (utf8Len w.buf : Int) → ReqsOK b w →
      ReqsOK b (addCodeStyle start stop w)) := by
  unfold addCodeStyle
  split
  · exact ⟨rfl, rfl, fun _ _ h => h⟩
  · refine ⟨rfl, rfl, fun hs he h r hr => ?_⟩
    simp only [List.mem_append, List.mem_singleton] at hr
    rcases hr with hr | hr
    · exact h r hr
    · subst hr
      refine ⟨hs, ?_, he, trivial⟩
      simp only [Request.startIndex, Request.endIndex]
      omega

theorem addLinkStyle_spec (b start stop : Int) (url : List Char) (w : Walker) :
    (addLinkStyle start stop url w).buf = w.buf ∧
    (addLinkStyle start stop url w).paragraphStart = w.paragraphStart ∧
    (b ≤ start → stop ≤ b + (utf8Len w.buf : Int) → ReqsOK b w →
      ReqsOK b (addLinkStyle start stop url w)) := by
  unfold addLinkStyle
  split
  · exact ⟨rfl, rfl, fun _ _ h => h⟩
  · rename_i hguard
    push_neg at hguard
    refine ⟨rfl, rfl, fun hs he h r hr => ?_⟩
    simp only [List.mem_append, List.mem_singleton] at hr
    rcases hr with hr | hr
    · exact h r hr
    · subst hr
      refine ⟨hs, ?_, he, hguard.2⟩
      simp only [Request.startIndex, Request.endIndex]
      omega

theorem addBulletRequest_spec (b start stop : Int) (ordered : Bool) (w : Walker) :
    (addBulletRequest start stop ordered w).buf = w.buf ∧
    (addBulletRequest start stop ordered w).paragraphStart = w.paragraphStart ∧
    (b ≤ start → stop ≤ b + (utf8Len w.buf : Int) → ReqsOK b w →
      ReqsOK b (addBulletRequest start stop ordered w)) := by
  unfold addBulletRequest
  split
  · exact ⟨rfl, rfl, fun _ _ h => h⟩
  · refine ⟨rfl, rfl, fun hs he h r hr => ?_⟩
    simp only [List.mem_append, List.mem_singleton] at hr
    rcases hr with hr | hr
    · exact h r hr
    · subst hr
      refine ⟨hs, ?_, he, trivial⟩
      simp only [Request.startIndex, Request.endIndex]
      omega

theorem inlineLoop_spec (b start stop : Int) :
    ∀ (anc : List Node) (w : Walker) (url : List Char),
    (inlineLoop start stop anc w url).1.buf = w.buf ∧
    (inlineLoop start stop anc w url).1.paragraphStart = w.paragraphStart ∧
    (b ≤ start → stop ≤ b + (utf8Len w.buf : Int) → ReqsOK b w →
      ReqsOK b (inlineLoop start stop anc w url).1) := by
  intro anc
  induction anc with
  | nil => exact fun w url => ⟨rfl, rfl, fun _ _ h => h⟩
  | cons p rest ih =>
    intro w url
    match p with
    | .emphasis level cs =>
      have hstep : inlineLoop start stop (Node.emphasis level cs :: rest) w url =
          if level = 1 then inlineLoop start stop rest (addItalicStyle start stop w) url
          else if 2 ≤ level then inlineLoop start stop rest (addBoldStyle start stop w) url
          else inlineLoop start stop rest w url := rfl
      rw [hstep]
      by_cases h1 : level = 1
      · rw [if_pos h1]
        have ha := addItalicStyle_spec b start stop w
        have hr := ih (addItalicStyle start stop w) url
        exact ⟨hr.1.trans ha.1, hr.2.1.trans ha.2.1,
          fun hs he h => hr.2.2 hs (by rw [ha.1]; exact he) (ha.2.2 hs he h)⟩
      · rw [if_neg h1]
        by_cases h2 : 2 ≤ level
        · rw [if_pos h2]
          have ha := addBoldStyle_spec b start stop w
          have hr := ih (addBoldStyle start stop w) url
          exact ⟨hr.1.trans ha.1, hr.2.1.trans ha.2.1,
            fun hs he h => hr.2.2 hs (by rw [ha.1]; exact he) (ha.2.2 hs he h)⟩
        · rw [if_neg h2]
          exact ih w url
    | .strikethroughNode cs =>
      have ha := addStrikethroughStyle_spec b start stop w
      have hr := ih (addStrikethroughStyle start stop w) url
      exact ⟨hr.1.trans ha.1, hr.2.1.trans ha.2.1,
        fun hs he h => hr.2.2 hs (by rw [ha.1]; exact he) (ha.2.2 hs he h)⟩
    | .linkNode dest cs => exact ih w dest
    | .document cs => exact ih w url
    | .heading level cs => exact ih w url
    | .paragraph cs => exact ih w url
    | .listNode o cs => exact ih w url
    | .listItem cs => exact ih w url
    | .textBlock cs => exact ih w url
    | .textNode c sb hb => exact ih w url
    | .stringNode v => exact ih w url
    | .autoLink u => exact ih w url
    | .codeSpan cs => exact ih w url
    | .fencedCodeBlock ls => exact ih w url
    | .codeBlock ls => exact ih w url
    | .thematicBreak => exact ih w url
    | .blockquote cs => exact ih w url
    | .htmlBlock => exact ih w url
    | .rawHTML => exact ih w url
    | .image cs => exact ih w url

theorem applyInlineFormatting_spec (b start stop : Int) (anc : List Node) (w : Walker) :
    (applyInlineFormatting anc start stop w).buf = w.buf ∧
    (applyInlineFormatting anc start stop w).paragraphStart = w.paragraphStart ∧
    (b ≤ start → stop ≤ b + (utf8Len w.buf : Int) → ReqsOK b w →
      ReqsOK b (applyInlineFormatting anc start stop w)) := by
  unfold applyInlineFormatting
  split
  · exact ⟨rfl, rfl, fun _ _ h => h⟩
  · have hl := inlineLoop_spec b start stop anc w []
    split
    · have ha := addLinkStyle_spec b start stop
        (inlineLoop start stop anc w []).2 (inlineLoop start stop anc w []).1
      exact ⟨ha.1.trans hl.1, ha.2.1.trans hl.2.1,
        fun hs he h => ha.2.2 hs (by rw [hl.1]; exact he) (hl.2.2 hs he h)⟩
    · exact hl

theorem write_buf (w : Walker) (s : List Char) : (write w s).buf = w.buf ++ s := rfl

theorem utf8Len_write (w : Walker) (s : List Char) :
    utf8Len (write w s).buf = utf8Len w.buf + utf8Len s := by
  rw [write_buf, utf8Len_append]

theorem base_le_currentIndex (b : Int) (w : Walker) : b ≤ currentIndex b w := by
  unfold currentIndex; omega

/-- Composing a preservation triple with one more buffer write. -/
theorem pres_write (b : Int) (w x : Walker) (s : List Char)
    (h : utf8Len w.buf ≤ utf8Len x.buf ∧
      (b ≤ w.paragraphStart → b ≤ x.paragraphStart) ∧
      (ReqsOK b w → ReqsOK b x)) :
    utf8Len w.buf ≤ utf8Len (write x s).buf ∧
    (b ≤ w.paragraphStart → b ≤ (write x s).paragraphStart) ∧
    (ReqsOK b w → ReqsOK b (write x s)) :=
  ⟨by rw [utf8Len_write]; have := h.1; omega,
   fun hp => h.2.1 hp,
   fun hr => reqsOK_write s (h.2.2 hr)⟩

mutual
/-- Walking a node only grows the buffer, keeps the recorded paragraph
start at or above the base index once it got there, and keeps every
accumulated request valid (in range for the current buffer, with
non-degenerate ranges and non-empty link URLs). -/
def walkNode_pres (b : Int) (anc : List Node) (w : Walker) (n : Node) :
    utf8Len w.buf ≤ utf8Len (walkNode b anc w n).buf ∧
    (b ≤ w.paragraphStart → b ≤ (walkNode b anc w n).paragraphStart) ∧
    (ReqsOK b w → ReqsOK b (walkNode b anc w n)) := by
  match n with
  | .document children =>
    exact walkList_pres b (.document children :: anc) w children
  | .heading level children =>
    have hstep : walkNode b anc w (.heading level children) =
        addHeadingStyle (write (walkList b (.heading level children :: anc)
            { w with paragraphStart := currentIndex b w } children) ['\n']).paragraphStart
          (currentIndex b (write (walkList b (.heading level children :: anc)
            { w with paragraphStart := currentIndex b w } children) ['\n'])) level
          (write (walkList b (.heading level children :: anc)
            { w with paragraphStart := currentIndex b w } children) ['\n']) := rfl
    rw [hstep]
    set w1 : Walker := { w with paragraphStart := currentIndex b w } with hw1
    set w2 : Walker := walkList b (.heading level children :: anc) w1 children with hw2
    have h1 := walkList_pres b (.heading level children :: anc) w1 children
    rw [← hw2] at h1
    have hps2 : b ≤ w2.paragraphStart := by
      apply h1.2.1
      rw [hw1]
      exact base_le_currentIndex b w
    have hadd := addHeadingStyle_spec b (write w2 ['\n']).paragraphStart
      (currentIndex b (write w2 ['\n'])) level (write w2 ['\n'])
    refine ⟨?_, ?_, ?_⟩
    · rw [hadd.1, utf8Len_write]
      have hb1 : utf8Len w1.buf = utf8Len w.buf := by rw [hw1]
      have := h1.1
      omega
    · intro _
      rw [hadd.2.1]
      exact hps2
    · intro h
      apply hadd.2.2
      · exact hps2
      · exact le_of_eq rfl
      · exact reqsOK_write _ (h1.2.2 h)
  | .paragraph children =>
    have hstep : walkNode b anc w (.paragraph children) =
        (if (write (walkList b (.paragraph children :: anc)
              { w with paragraphStart := currentIndex b w } children) ['\n']).inList = true
         then
          addBulletRequest (write (walkList b (.paragraph children :: anc)
              { w with paragraphStart := currentIndex b w } children) ['\n']).paragraphStart
            (currentIndex b (write (walkList b (.paragraph children :: anc)
              { w with paragraphStart := currentIndex b w } children) ['\n']))
            (write (walkList b (.paragraph children :: anc)
              { w with paragraphStart := currentIndex b w } children) ['\n']).listOrdered
            (write (walkList b (.paragraph children :: anc)
              { w with paragraphStart := currentIndex b w } children) ['\n'])
         else write (walkList b (.paragraph children :: anc)
              { w with paragraphStart := currentIndex b w } children) ['\n']) := rfl
    rw [hstep]
    set w1 : Walker := { w with paragraphStart := currentIndex b w } with hw1
    set w2 : Walker := walkList b (.paragraph children :: anc) w1 children with hw2
    have h1 := walkList_pres b (.paragraph children :: anc) w1 children
    rw [← hw2] at h1
    have hps2 : b ≤ w2.paragraphStart := by
      apply h1.2.1
      rw [hw1]
      exact base_le_currentIndex b w
    have hb1 : utf8Len w1.buf = utf8Len w.buf := by rw [hw1]
    by_cases hil : (write w2 ['\n']).inList = true
    · rw [if_pos hil]
      have hadd := addBulletRequest_spec b (write w2 ['\n']).paragraphStart
        (currentIndex b (write w2 ['\n'])) (write w2 ['\n']).listOrdered (write w2 ['\n'])
      refine ⟨?_, ?_, ?_⟩
      · rw [hadd.1, utf8Len_write]
        have := h1.1
        omega
      · intro _
        rw [hadd.2.1]
        exact hps2
      · intro h
        apply hadd.2.2
        · exact hps2
        · exact le_of_eq rfl
        · exact reqsOK_write _ (h1.2.2 h)
    · rw [if_neg hil]
      refine ⟨?_, ?_, ?_⟩
      · rw [utf8Len_write]
        have := h1.1
        omega
      · intro _
        exact hps2
      · intro h
        exact reqsOK_write _ (h1.2.2 h)
  | .listNode ordered children =>
    have h1 := walkList_pres b (.listNode ordered children :: anc)
      { w with inList := true, listOrdered := ordered } children
    exact ⟨h1.1, h1.2.1, h1.2.2⟩
  | .listItem children =>
    exact walkList_pres b (.listItem children :: anc) w children
  | .textBlock children =>
    have hstep : walkNode b anc w (.textBlock children) =
        write (walkList b (.textBlock children :: anc) w children) ['\n'] := rfl
    rw [hstep]
    exact pres_write b w _ _ (walkList_pres b (.textBlock children :: anc) w children)
  | .textNode content sb hb =>
    have hstep : walkNode b anc w (.textNode content sb hb) =
        (if hb = true then
          write (if sb = true then
              write (applyInlineFormatting anc (currentIndex b w)
                (currentIndex b (write w content)) (write w content)) [' ']
            else applyInlineFormatting anc (currentIndex b w)
                (currentIndex b (write w content)) (write w content)) ['\n']
        else (if sb = true then
              write (applyInlineFormatting anc (currentIndex b w)
                (currentIndex b (write w content)) (write w content)) [' ']
            else applyInlineFormatting anc (currentIndex b w)
                (currentIndex b (write w content)) (write w content))) := rfl
    rw [hstep]
    have ha := applyInlineFormatting_spec b (currentIndex b w)
      (currentIndex b (write w content)) anc (write w content)
    have base : utf8Len w.buf ≤
        utf8Len (applyInlineFormatting anc (currentIndex b w)
          (currentIndex b (write w content)) (write w content)).buf ∧
        (b ≤ w.paragraphStart →
          b ≤ (applyInlineFormatting anc (currentIndex b w)
            (currentIndex b (write w content)) (write w content)).paragraphStart) ∧
        (ReqsOK b w →
          ReqsOK b (applyInlineFormatting anc (currentIndex b w)
            (currentIndex b (write w content)) (write w content))) := by
      refine ⟨?_, ?_, ?_⟩
      · rw [ha.1, utf8Len_write]
        omega
      · intro hp
        rw [ha.2.1]
        exact hp
      · intro h
        exact ha.2.2 (base_le_currentIndex b w) (le_of_eq rfl) (reqsOK_write content h)
    by_cases hhb : hb = true
    · rw [if_pos hhb]
      by_cases hsb : sb = true
      · rw [if_pos hsb]
        exact pres_write b w _ _ (pres_write b w _ _ base)
      · rw [if_neg hsb]
        exact pres_write b w _ _ base
    · rw [if_neg hhb]
      by_cases hsb : sb = true
      · rw [if_pos hsb]
        exact pres_write b w _ _ base
      · rw [if_neg hsb]
        exact base
  | .stringNode value =>
    have hstep : walkNode b anc w (.stringNode value) = write w value := rfl
    rw [hstep]
    exact pres_write b w w value ⟨le_refl _, fun h => h, fun h => h⟩
  | .emphasis level children =>
    exact walkList_pres b (.emphasis level children :: anc) w children
  | .strikethroughNode children =>
    exact walkList_pres b (.strikethroughNode children :: anc) w children
  | .linkNode destination children =>
    exact walkList_pres b (.linkNode destination children :: anc) w children
  | .autoLink url =>
    have hstep : walkNode b anc w (.autoLink url) =
        addLinkStyle (currentIndex b w) (currentIndex b (write w url)) url (write w url) := rfl
    rw [hstep]
    have ha := addLinkStyle_spec b (currentIndex b w) (currentIndex b (write w url)) url
      (write w url)
    refine ⟨?_, ?_, ?_⟩
    · rw [ha.1, utf8Len_write]
      omega
    · intro hp
      rw [ha.2.1]
      exact hp
    · intro h
      exact ha.2.2 (base_le_currentIndex b w) (le_of_eq rfl) (reqsOK_write url h)
  | .codeSpan children =>
    have hstep : walkNode b anc w (.codeSpan children) =
        addCodeStyle (currentIndex b w) (currentIndex b (write w (textChildrenContent children)))
          (write w (textChildrenContent children)) := rfl
    rw [hstep]
    have ha := addCodeStyle_spec b (currentIndex b w)
      (currentIndex b (write w (textChildrenContent children)))
      (write w (textChildrenContent children))
    refine ⟨?_, ?_, ?_⟩
    · rw [ha.1, utf8Len_write]
      omega
    · intro hp
      rw [ha.2.1]
      exact hp
    · intro h
      exact ha.2.2 (base_le_currentIndex b w) (le_of_eq rfl) (reqsOK_write _ h)
  | .fencedCodeBlock lines =>
    have hstep : walkNode b anc w (.fencedCodeBlock lines) =
        addCodeStyle (currentIndex b w) (currentIndex b (write w (joinLines lines)))
          (write (write w (joinLines lines)) ['\n']) := rfl
    rw [hstep]
    have ha := addCodeStyle_spec b (currentIndex b w)
      (currentIndex b (write w (joinLines lines))) (write (write w (joinLines lines)) ['\n'])
    refine ⟨?_, ?_, ?_⟩
    · rw [ha.1, utf8Len_write, utf8Len_write]
      omega
    · intro hp
      rw [ha.2.1]
      exact hp
    · intro h
      apply ha.2.2
      · exact base_le_currentIndex b w
      · simp only [currentIndex, utf8Len_write]
        omega
      · exact reqsOK_write _ (reqsOK_write _ h)
  | .codeBlock lines =>
    have hstep : walkNode b anc w (.codeBlock lines) =
        addCodeStyle (currentIndex b w) (currentIndex b (write w (joinLines lines)))
          (write (write w (joinLines lines)) ['\n']) := rfl
    rw [hstep]
    have ha := addCodeStyle_spec b (currentIndex b w)
      (currentIndex b (write w (joinLines lines))) (write (write w (joinLines lines)) ['\n'])
    refine ⟨?_, ?_, ?_⟩
    · rw [ha.1, utf8Len_write, utf8Len_write]
      omega
    · intro hp
      rw [ha.2.1]
      exact hp
    · intro h
      apply ha.2.2
      · exact base_le_currentIndex b w
      · simp only [currentIndex, utf8Len_write]
        omega
      · exact reqsOK_write _ (reqsOK_write _ h)
  | .thematicBreak =>
    have hstep : walkNode b anc w .thematicBreak = write w thematicBreakText := rfl
    rw [hstep]
    exact pres_write b w w thematicBreakText ⟨le_refl _, fun h => h, fun h => h⟩
  | .blockquote children =>
    exact walkList_pres b (.blockquote children :: anc) w children
  | .htmlBlock =>
    exact ⟨le_refl _, fun h => h, fun h => h⟩
  | .rawHTML =>
    exact ⟨le_refl _, fun h => h, fun h => h⟩
  | .image children =>
    have hstep : walkNode b anc w (.image children) =
        write w ('[' :: (textChildrenContent children ++ [']'])) := rfl
    rw [hstep]
    exact pres_write b w w _ ⟨le_refl _, fun h => h, fun h => h⟩
termination_by structural n

/-- The list version of `walkNode_pres`. -/
def walkList_pres (b : Int) (anc : List Node) (w : Walker) (l : List Node) :
    utf8Len w.buf ≤ utf8Len (walkList b anc w l).buf ∧
    (b ≤ w.paragraphStart → b ≤ (walkList b anc w l).paragraphStart) ∧
    (ReqsOK b w → ReqsOK b (walkList b anc w l)) := by
  match l with
  | [] => exact ⟨le_refl _, fun h => h, fun h => h⟩
  | c :: cs =>
    have h1 := walkNode_pres b anc w c
    have h2 := walkList_pres b anc (walkNode b anc w c) cs
    exact ⟨h1.1.trans h2.1, fun h => h2.2.1 (h1.2.1 h), fun h => h2.2.2 (h1.2.2 h)⟩
termination_by structural l
end

mutual
/-- A node that produces no text leaves the buffer untouched: only the
node kinds counted by `hasText` ever write. -/
def walkNode_bufEq (b : Int) (anc : List Node) (w : Walker) (n : Node)
    (h : hasText n = false) : (walkNode b anc w n).buf = w.buf := by
  match n with
  | .document children =>
    exact walkList_bufEq b (.document children :: anc) w children (by simpa [hasText] using h)
  | .heading level children => simp [hasText] at h
  | .paragraph children => simp [hasText] at h
  | .listNode ordered children =>
    exact walkList_bufEq b (.listNode ordered children :: anc)
      { w with inList := true, listOrdered := ordered } children (by simpa [hasText] using h)
  | .listItem children =>
    exact walkList_bufEq b (.listItem children :: anc) w children (by simpa [hasText] using h)
  | .textBlock children => simp [hasText] at h
  | .textNode content sb hb =>
    have hc : (content = [] ∧ sb = false) ∧ hb = false := by
      simpa [hasText, List.isEmpty_iff] using h
    obtain ⟨⟨h1, h2⟩, h3⟩ := hc
    subst h1
    subst h2
    subst h3
    have hstep : walkNode b anc w (.textNode [] false false) =
        applyInlineFormatting anc (currentIndex b w) (currentIndex b (write w []))
          (write w []) := rfl
    rw [hstep,
      (applyInlineFormatting_spec b (currentIndex b w) (currentIndex b (write w [])) anc
        (write w [])).1]
    simp [write_buf]
  | .stringNode value =>
    have h1 : value = [] := by simpa [hasText, List.isEmpty_iff] using h
    subst h1
    have hstep : walkNode b anc w (.stringNode []) = write w [] := rfl
    rw [hstep]
    simp [write_buf]
  | .emphasis level children =>
    exact walkList_bufEq b (.emphasis level children :: anc) w children
      (by simpa [hasText] using h)
  | .strikethroughNode children =>
    exact walkList_bufEq b (.strikethroughNode children :: anc) w children
      (by simpa [hasText] using h)
  | .linkNode destination children =>
    exact walkList_bufEq b (.linkNode destination children :: anc) w children
      (by simpa [hasText] using h)
  | .autoLink url =>
    have h1 : url = [] := by simpa [hasText, List.isEmpty_iff] using h
    subst h1
    have hstep : walkNode b anc w (.autoLink []) =
        addLinkStyle (currentIndex b w) (currentIndex b (write w [])) [] (write w []) := rfl
    rw [hstep,
      (addLinkStyle_spec b (currentIndex b w) (currentIndex b (write w [])) [] (write w [])).1]
    simp [write_buf]
  | .codeSpan children =>
    have h1 : textChildrenContent children = [] := by
      simpa [hasText, List.isEmpty_iff] using h
    have hstep : walkNode b anc w (.codeSpan children) =
        addCodeStyle (currentIndex b w)
          (currentIndex b (write w (textChildrenContent children)))
          (write w (textChildrenContent children)) := rfl
    rw [hstep,
      (addCodeStyle_spec b (currentIndex b w)
        (currentIndex b (write w (textChildrenContent children)))
        (write w (textChildrenContent children))).1]
    simp [write_buf, h1]
  | .fencedCodeBlock lines => simp [hasText] at h
  | .codeBlock lines => simp [hasText] at h
  | .thematicBreak => simp [hasText] at h
  | .blockquote children =>
    exact walkList_bufEq b (.blockquote children :: anc) w children
      (by simpa [hasText] using h)
  | .htmlBlock => rfl
  | .rawHTML => rfl
  | .image children => simp [hasText] at h
termination_by structural n

/-- The list version of `walkNode_bufEq`. -/
def walkList_bufEq (b : Int) (anc : List Node) (w : Walker) (l : List Node)
    (h : hasTextList l = false) : (walkList b anc w l).buf = w.buf := by
  match l with
  | [] => rfl
  | c :: cs =>
    have hh : hasText c = false ∧ hasTextList cs = false := by
      simpa [hasTextList] using h
    have h1 := walkNode_bufEq b anc w c hh.1
    have h2 := walkList_bufEq b anc (walkNode b anc w c) cs hh.2
    exact h2.trans h1
termination_by structural l
end

theorem appendLimited_len (maxBytes : Int) (hm : 0 < maxBytes) (buf s : List Nat)
    (hb : (buf.length : Int) ≤ maxBytes) :
    (((appendLimited buf maxBytes s).1.length : Int) ≤ maxBytes) := by
  unfold appendLimited
  rw [if_neg (by omega)]
  by_cases h1 : maxBytes - (buf.length : Int) ≤ 0
  · rw [if_pos h1]
    exact hb
  · rw [if_neg h1]
    by_cases h2 : maxBytes - (buf.length : Int) < (s.length : Int)
    · rw [if_pos h2]
      simp only [List.length_append, List.length_take]
      omega
    · rw [if_neg h2]
      simp only [List.length_append]
      omega

theorem andThen_len (m : Int) (r : List Nat × Bool) (k : List Nat → List Nat × Bool)
    (hr : ((r.1.length : Int) ≤ m))
    (hk : ∀ b2 : List Nat, (b2.length : Int) ≤ m → (((k b2).1.length : Int) ≤ m)) :
    (((andThen r k).1.length : Int) ≤ m) := by
  unfold andThen
  split
  · exact hk r.1 hr
  · exact hr

theorem appendRuns_len (maxBytes : Int) (hm : 0 < maxBytes) :
    ∀ (runs : List (Option (List Nat))) (buf : List Nat),
      (buf.length : Int) ≤ maxBytes →
      (((appendRuns maxBytes buf runs).1.length : Int) ≤ maxBytes) := by
  intro runs
  induction runs with
  | nil => exact fun buf hb => hb
  | cons o rest ih =>
    intro buf hb
    match o with
    | none => exact ih buf hb
    | some content =>
      exact andThen_len maxBytes _ _ (appendLimited_len maxBytes hm buf content hb)
        (fun b2 hb2 => ih b2 hb2)

mutual
/-- The byte budget bounds the buffer through the traversal of one
structural element. -/
def appendElement_len (maxBytes : Int) (hm : 0 < maxBytes) (buf : List Nat)
    (hb : (buf.length : Int) ≤ maxBytes) (el : DocElement) :
    (((appendElement maxBytes buf el).1.length : Int) ≤ maxBytes) := by
  match el with
  | .docParagraph runs => exact appendRuns_len maxBytes hm runs buf hb
  | .docTable rows => exact appendRows_len maxBytes hm buf hb true rows
  | .docTOC content => exact appendElements_len maxBytes hm buf hb content
  | .docOther => exact hb
termination_by structural el

/-- The byte budget bounds the buffer through the rows of a table. -/
def appendRows_len (maxBytes : Int) (hm : 0 < maxBytes) (buf : List Nat)
    (hb : (buf.length : Int) ≤ maxBytes) (firstRow : Bool) (rows : List DocRow) :
    (((appendRows maxBytes buf firstRow rows).1.length : Int) ≤ maxBytes) := by
  match rows with
  | [] => exact hb
  | .row cells :: rest =>
    apply andThen_len
    · by_cases hf : firstRow = true
      · rw [if_pos hf]
        exact hb
      · rw [if_neg hf]
        exact appendLimited_len maxBytes hm buf [10] hb
    · intro b1 hb1
      apply andThen_len
      · exact appendCells_len maxBytes hm b1 hb1 true cells
      · intro b2 hb2
        exact appendRows_len maxBytes hm b2 hb2 false rest
termination_by structural rows

/-- The byte budget bounds the buffer through the cells of a row. -/
def appendCells_len (maxBytes : Int) (hm : 0 < maxBytes) (buf : List Nat)
    (hb : (buf.length : Int) ≤ maxBytes) (firstCell : Bool) (cells : List DocCell) :
    (((appendCells maxBytes buf firstCell cells).1.length : Int) ≤ maxBytes) := by
  match cells with
  | [] => exact hb
  | .cell content :: rest =>
    apply andThen_len
    · by_cases hf : firstCell = true
      · rw [if_pos hf]
        exact hb
      · rw [if_neg hf]
        exact appendLimited_len maxBytes hm buf [9] hb
    · intro b1 hb1
      apply andThen_len
      · exact appendElements_len maxBytes hm b1 hb1 content
      · intro b2 hb2
        exact appendCells_len maxBytes hm b2 hb2 false rest
termination_by structural cells

/-- The byte budget bounds the buffer through a sequence of structural
elements. -/
def appendElements_len (maxBytes : Int) (hm : 0 < maxBytes) (buf : List Nat)
    (hb : (buf.length : Int) ≤ maxBytes) (els : List DocElement) :
    (((appendElements maxBytes buf els).1.length : Int) ≤ maxBytes) := by
  match els with
  | [] => exact hb
  | el :: rest =>
    apply andThen_len
    · exact appendElement_len maxBytes hm buf hb el
    · intro b2 hb2
      exact appendElements_len maxBytes hm b2 hb2 rest
termination_by structural els
end

theorem inlineLoop_url (start stop : Int) :
    ∀ (anc : List Node) (w : Walker) (url : List Char),
    (inlineLoop start stop anc w url).2 = lastLinkDestFrom url anc := by
  intro anc
  induction anc with
  | nil => exact fun w url => rfl
  | cons p rest ih =>
    intro w url
    match p with
    | .emphasis level cs =>
      have hstep : inlineLoop start stop (Node.emphasis level cs :: rest) w url =
          if level = 1 then inlineLoop start stop rest (addItalicStyle start stop w) url
          else if 2 ≤ level then inlineLoop start stop rest (addBoldStyle start stop w) url
          else inlineLoop start stop rest w url := rfl
      rw [hstep]
      by_cases h1 : level = 1
      · rw [if_pos h1]
        exact ih (addItalicStyle start stop w) url
      · rw [if_neg h1]
        by_cases h2 : 2 ≤ level
        · rw [if_pos h2]
          exact ih (addBoldStyle start stop w) url
        · rw [if_neg h2]
          exact ih w url
    | .strikethroughNode cs => exact ih (addStrikethroughStyle start stop w) url
    | .linkNode dest cs => exact ih w dest
    | .document cs => exact ih w url
    | .heading level cs => exact ih w url
    | .paragraph cs => exact ih w url
    | .listNode o cs => exact ih w url
    | .listItem cs => exact ih w url
    | .textBlock cs => exact ih w url
    | .textNode c sb hb => exact ih w url
    | .stringNode v => exact ih w url
    | .autoLink u => exact ih w url
    | .codeSpan cs => exact ih w url
    | .fencedCodeBlock ls => exact ih w url
    | .codeBlock ls => exact ih w url
    | .thematicBreak => exact ih w url
    | .blockquote cs => exact ih w url
    | .htmlBlock => exact ih w url
    | .rawHTML => exact ih w url
    | .image cs => exact ih w url

/-- The goldmark tree of `"# Title\n\nBody"`: a level-1 heading over the
text `Title`, then a paragraph over the text `Body`. -/
def titleBodyDoc : Node :=
  .document [.heading 1 [.textNode "Title".toList false false],
             .paragraph [.textNode "Body".toList false false]]

/-- The goldmark tree of `"# é"`: a level-1 heading over a single
two-byte character. -/
def accentHeadingDoc : Node :=
  .document [.heading 1 [.textNode ['é'] false false]]

/-- A loose unordered list whose first item holds paragraph `A` and a
nested sublist with paragraph `B`, followed by a second item with
paragraph `C` — the shape of `"- A\n\n  - B\n\n- C"`. -/
def nestedListDoc : Node :=
  .document [.listNode false
    [.listItem [.paragraph [.textNode "A".toList false false],
                .listNode false [.listItem [.paragraph [.textNode "B".toList false false]]]],
     .listItem [.paragraph [.textNode "C".toList false false]]]]

/-- The goldmark tree of `"**a *b* c**"`: level-2 emphasis containing
text `a `, a level-1 emphasis over `b`, and text ` c`. -/
def nestedEmphasisDoc : Node :=
  .document [.paragraph [.emphasis 2
    [.textNode "a ".toList false false,
     .emphasis 1 [.textNode "b".toList false false],
     .textNode " c".toList false false]]]

/-- A text leaf with two `Link` ancestors: the closest has destination
`a`, the outermost destination `b`. -/
def nestedLinkDoc : Node :=
  .document [.paragraph
    [.linkNode "b".toList [.linkNode "a".toList [.textNode "x".toList false false]]]]

/-- The goldmark tree of a document that is one fenced code block with
the single source line `x\n`. -/
def trailingCodeDoc : Node :=
  .document [.fencedCodeBlock ["x\n".toList]]

/-- A link with empty destination around bold text `x`. -/
def emptyLinkBoldDoc : Node :=
  .document [.paragraph [.linkNode [] [.emphasis 2 [.textNode "x".toList false false]]]]

/-- A link with destination `u` around text `x`. -/
def urlLinkDoc : Node :=
  .document [.paragraph [.linkNode "u".toList [.textNode "x".toList false false]]]

/-- A 2×2 table whose four cells each hold one paragraph with one text
run. -/
def table2x2 (a b c d : List Nat) : DocElement :=
  .docTable
    [.row [.cell [.docParagraph [some a]], .cell [.docParagraph [some b]]],
     .row [.cell [.docParagraph [some c]], .cell [.docParagraph [some d]]]]

/-- The 2×2 table with cell texts `a`,`b`,`c`,`d` (ASCII bytes). -/
def tableExample : DocElement := table2x2 [97] [98] [99] [100]

/-- A document paragraph whose only text run is the two UTF-8 bytes of
`é`. -/
def multiByteParagraph : DocElement := .docParagraph [some [195, 169]]

/-- Claim C1: for every input tree and every `baseIndex ≥ 1`, every
request emitted by `Parse` has `0 < startIndex < endIndex ≤ baseIndex +
length(plainText)` (length in the buffer's own unit, UTF-8 bytes), and
every `add*` helper discards a computed range with `start = end`, so all
emitted operations have strictly positive extent. -/
theorem claim1_emitted_ranges_valid (root : Node) (b : Int) (hb : 1 ≤ b) :
    (∀ r ∈ (Parse root b).requests,
      0 < r.startIndex ∧ r.startIndex < r.endIndex ∧
      r.endIndex ≤ b + (utf8Len (Parse root b).plainText : Int)) ∧
    (∀ (s : Int) (lvl : Nat) (o : Bool) (u : List Char) (w : Walker),
      addHeadingStyle s s lvl w = w ∧ addBoldStyle s s w = w ∧ addItalicStyle s s w = w ∧
      addStrikethroughStyle s s w = w ∧ addCodeStyle s s w = w ∧
      addLinkStyle s s u w = w ∧ addBulletRequest s s o w = w) := by
  constructor
  · have hreq := (walkNode_pres b [] initialWalker root).2.2 (reqsOK_initial b)
    have hstep : Parse root b =
        { plainText :=
            if (walkNode b [] initialWalker root).buf.getLast? ≠ some '\n' ∧
                (walkNode b [] initialWalker root).buf ≠ [] then
              (walkNode b [] initialWalker root).buf ++ ['\n']
            else (walkNode b [] initialWalker root).buf,
          requests := (walkNode b [] initialWalker root).requests } := rfl
    rw [hstep]
    intro r hr
    have hok := hreq r hr
    obtain ⟨h1, h2, h3, _⟩ := hok
    refine ⟨by omega, h2, ?_⟩
    split
    · rw [utf8Len_append]
      omega
    · exact h3
  · intro s lvl o u w
    refine ⟨?_, ?_, ?_, ?_, ?_, ?_, ?_⟩ <;>
      simp [addHeadingStyle, addBoldStyle, addItalicStyle, addStrikethroughStyle,
        addCodeStyle, addLinkStyle, addBulletRequest]

/-- Witness for C1: the heading request of `"# Title\n\nBody"` at base
index 1 satisfies the bound. -/
theorem claim1_witness :
    0 < (Request.updateParagraphStyle 1 7 "HEADING_1".toList).startIndex ∧
    (Request.updateParagraphStyle 1 7 "HEADING_1".toList).startIndex <
      (Request.updateParagraphStyle 1 7 "HEADING_1".toList).endIndex ∧
    (Request.updateParagraphStyle 1 7 "HEADING_1".toList).endIndex ≤
      1 + (utf8Len (Parse titleBodyDoc 1).plainText : Int) :=
  (claim1_emitted_ranges_valid titleBodyDoc 1 (by norm_num)).1
    (Request.updateParagraphStyle 1 7 "HEADING_1".toList) (by decide)

/-- Counterexample for C2 as stated: the heading style of
`"# Title\n\nBody"` at base 1 covers `[1, 7)` — the trailing newline is
written before the style is emitted — so no operation with range
`[1, 6)` is present. -/
theorem claim2_counterexample :
    (Parse titleBodyDoc 1).requests = [.updateParagraphStyle 1 7 "HEADING_1".toList] ∧
    Request.updateParagraphStyle 1 6 "HEADING_1".toList ∉ (Parse titleBodyDoc 1).requests := by
  decide

/-- Claim C2 (amended): `"# Title\n\nBody"` at base 1 gives plain text
`"Title\nBody\n"` and exactly one heading operation, `HEADING_1` over
`[1, 7)` (the heading's newline included). -/
theorem claim2_title_body :
    Parse titleBodyDoc 1 =
      { plainText := "Title\nBody\n".toList,
        requests := [.updateParagraphStyle 1 7 "HEADING_1".toList] } := by
  decide

/-- Counterexample for C3 as stated: for the heading `é` the emitted
operation ends at 4, but base + code-point count of the plain text is 3,
so ranges are not measured in code points. -/
theorem claim3_counterexample :
    (Parse accentHeadingDoc 1).requests.map Request.endIndex = [4] ∧
    1 + ((Parse accentHeadingDoc 1).plainText.length : Int) = 3 ∧
    ¬ ((4 : Int) ≤ 3) := by
  decide

/-- Claim C3 (amended): the index unit is the UTF-8 byte count of the
buffer — for the heading `é` the operation covers `[1, 4)` and its end
equals base + byte length of the plain text — and the byte count agrees
with the code-point count exactly when every character is one UTF-8 byte
(ASCII). -/
theorem claim3_byte_indexing :
    (Parse accentHeadingDoc 1 =
      { plainText := ['é', '\n'],
        requests := [.updateParagraphStyle 1 4 "HEADING_1".toList] } ∧
      (4 : Int) = 1 + (utf8Len (Parse accentHeadingDoc 1).plainText : Int)) ∧
    (∀ cs : List Char, (∀ c ∈ cs, Char.utf8Size c = 1) → utf8Len cs = cs.length) := by
  refine ⟨⟨by decide, by decide⟩, ?_⟩
  intro cs
  induction cs with
  | nil => intro _; rfl
  | cons c rest ih =>
    intro h
    have hc := h c (List.mem_cons_self c rest)
    have hr := ih (fun x hx => h x (List.mem_cons_of_mem c hx))
    simp only [utf8Len, List.map_cons, List.sum_cons, List.length_cons] at hr ⊢
    omega

/-- Witness for C3 (amended): on an ASCII list the byte length equals
the character count. -/
theorem claim3_witness : utf8Len ['a', 'b'] = 2 := by
  have h := claim3_byte_indexing.2 ['a', 'b'] (by decide)
  simpa using h

/-- Claim C4 (code bug): in the loose nested list `A / (nested B) / C`,
the walker's single `inList` flag is cleared when the nested list exits,
so paragraph `C` — an outer item after the sublist — gets no bullet:
only two bullet requests are emitted, for `A` and `B`. -/
theorem claim4_nested_list_loses_bullet :
    Parse nestedListDoc 1 =
      { plainText := "A\nB\nC\n".toList,
        requests := [.createParagraphBullets 1 3 (bulletPresetFor false),
                     .createParagraphBullets 3 5 (bulletPresetFor false)] } := by
  decide

/-- Counterexample for C5 as stated: `"**a *b* c**"` yields three bold
operations (one per text leaf), not a single contiguous bold operation
covering the whole span `[1, 6)`. -/
theorem claim5_counterexample :
    (Parse nestedEmphasisDoc 1).requests =
      [.updateTextBold 1 3, .updateTextItalic 3 4, .updateTextBold 3 4,
       .updateTextBold 4 6] ∧
    Request.updateTextBold 1 6 ∉ (Parse nestedEmphasisDoc 1).requests := by
  decide

/-- Claim C5 (amended): emphasis level 1 resolves to italic and level ≥2
to bold per styling ancestor of each leaf, so `"**a *b* c**"` yields
bold over `[1,3)`, `[3,4)`, `[4,6)` (adjacent per-leaf operations tiling
the span, none doubled) and italic over `[3,4)`. -/
theorem claim5_per_leaf_emphasis :
    Parse nestedEmphasisDoc 1 =
      { plainText := "a b c\n".toList,
        requests := [.updateTextBold 1 3, .updateTextItalic 3 4, .updateTextBold 3 4,
                     .updateTextBold 4 6] } := by
  decide

/-- Counterexample for C6 as stated: with inner link destination `a` and
outer destination `b`, the emitted link operation carries `b`, not the
closest ancestor's `a`. -/
theorem claim6_counterexample :
    (Parse nestedLinkDoc 1).requests = [.updateTextLink 1 2 "b".toList] ∧
    Request.updateTextLink 1 2 "a".toList ∉ (Parse nestedLinkDoc 1).requests := by
  decide

/-- Claim C6 (amended): the ancestor loop overwrites the pending URL at
every `Link`, so the emitted link operation carries the destination of
the outermost (last encountered walking upward) `Link` ancestor, and it
is emitted last for the leaf's range. -/
theorem claim6_outermost_link_wins (anc : List Node) (start stop : Int) (w : Walker)
    (h1 : start < stop) (h2 : lastLinkDest anc ≠ []) :
    (applyInlineFormatting anc start stop w).requests.getLast? =
      some (.updateTextLink start stop (lastLinkDest anc)) := by
  unfold applyInlineFormatting
  rw [if_neg (by omega)]
  have hu := inlineLoop_url start stop anc w []
  have hu2 : (inlineLoop start stop anc w []).2 = lastLinkDest anc := hu
  rw [hu2, if_pos h2]
  unfold addLinkStyle
  rw [if_neg (by push_neg; exact ⟨by omega, h2⟩)]
  simp

/-- Witness for C6 (amended): a chain with inner destination `a` and
outer destination `b` resolves to `b`. -/
theorem claim6_witness :
    (applyInlineFormatting [Node.linkNode "a".toList [], Node.linkNode "b".toList []]
      1 2 initialWalker).requests.getLast? = some (.updateTextLink 1 2 "b".toList) := by
  have h := claim6_outermost_link_wins
    [Node.linkNode "a".toList [], Node.linkNode "b".toList []] 1 2 initialWalker
    (by norm_num) (by decide)
  rw [h]
  decide

/-- Counterexample for C7 as stated: a document that is one fenced code
block `x\n` compiles to `"x\n\n"` — non-empty plain text ending in two
newlines, not exactly one. -/
theorem claim7_counterexample :
    (Parse trailingCodeDoc 1).plainText = "x\n\n".toList ∧
    (Parse trailingCodeDoc 1).plainText.getLast? = some '\n' ∧
    (Parse trailingCodeDoc 1).plainText.dropLast.getLast? = some '\n' := by
  decide

/-- Claim C7 (amended): for every tree and base index the compiled plain
text is empty, or it ends with a newline (at least one; a trailing code
block can contribute a second) and the tree contains a text-producing
node. -/
theorem claim7_trailing_newline (root : Node) (b : Int) :
    (Parse root b).plainText = [] ∨
    ((Parse root b).plainText.getLast? = some '\n' ∧ hasText root = true) := by
  have hstep : Parse root b =
      { plainText :=
          if (walkNode b [] initialWalker root).buf.getLast? ≠ some '\n' ∧
              (walkNode b [] initialWalker root).buf ≠ [] then
            (walkNode b [] initialWalker root).buf ++ ['\n']
          else (walkNode b [] initialWalker root).buf,
        requests := (walkNode b [] initialWalker root).requests } := rfl
  rw [hstep]
  by_cases hbuf : (walkNode b [] initialWalker root).buf = []
  · left
    rw [if_neg (by simp [hbuf])]
    exact hbuf
  · right
    have hht : hasText root = true := by
      cases hht2 : hasText root with
      | true => rfl
      | false => exact absurd (walkNode_bufEq b [] initialWalker root hht2) hbuf
    refine ⟨?_, hht⟩
    by_cases hnl : (walkNode b [] initialWalker root).buf.getLast? = some '\n'
    · rw [if_neg (by simp [hnl])]
      exact hnl
    · rw [if_pos ⟨hnl, hbuf⟩]
      simp

/-- Counterexample for C8 as stated: flattening the 2×2 table with cell
texts `a`,`b`,`c`,`d` yields `"a\tb\nc\td"` — no trailing newline — and
not the claimed `"a\tb\nc\td\n"`. -/
theorem claim8_counterexample :
    docsPlainText (some [tableExample]) 0 = [97, 9, 98, 10, 99, 9, 100] ∧
    docsPlainText (some [tableExample]) 0 ≠ [97, 9, 98, 10, 99, 9, 100, 10] := by
  decide

/-- Claim C8 (amended): for any cell texts, flattening a 2×2 table puts
a tab (byte 9) between the cells of a row and a newline (byte 10)
between the rows, with no trailing newline. -/
theorem claim8_table_flattening (a b c d : List Nat) :
    docsPlainText (some [table2x2 a b c d]) 0 =
      a ++ 9 :: (b ++ 10 :: (c ++ 9 :: d)) := by
  simp [docsPlainText, table2x2, appendElements, appendElement, appendRows, appendCells,
    appendRuns, appendLimited, andThen]

/-- Counterexample for C9 as stated: the paragraph whose text is the
two-byte character `é` truncated at `maxBytes = 1` returns the single
lead byte `0xC3`, which is not a concatenation of complete UTF-8 code
points — the byte cut splits the character. -/
theorem claim9_counterexample :
    docsPlainText (some [multiByteParagraph]) 1 = [195] ∧
    validUtf8 [195] = false ∧ validUtf8 [195, 169] = true := by
  decide

/-- Claim C9 (amended): truncation is a raw byte cut — for every body
and every positive byte budget the extracted text has at most `maxBytes`
bytes (but, per the counterexample, may end inside a multi-byte
character). -/
theorem claim9_byte_budget (body : Option (List DocElement)) (maxBytes : Int)
    (hm : 0 < maxBytes) :
    ((docsPlainText body maxBytes).length : Int) ≤ maxBytes := by
  match body with
  | none =>
    simp [docsPlainText]
    omega
  | some content => exact appendElements_len maxBytes hm [] (by simp; omega) content

/-- Witness for C9 (amended): the truncated `é` paragraph stays within
one byte. -/
theorem claim9_witness : ((docsPlainText (some [multiByteParagraph]) 1).length : Int) ≤ 1 :=
  claim9_byte_budget (some [multiByteParagraph]) 1 (by norm_num)

/-- Claim C10: `Parse` never emits a link operation with an empty URL —
for every tree and base index every emitted link request has a non-empty
URL — and for a link with empty destination around bold text the bold
operation is still emitted while the link is suppressed. -/
theorem claim10_no_empty_link_url :
    (∀ (root : Node) (b s e : Int) (u : List Char),
      Request.updateTextLink s e u ∈ (Parse root b).requests → u ≠ []) ∧
    Parse emptyLinkBoldDoc 1 =
      { plainText := "x\n".toList, requests := [.updateTextBold 1 2] } := by
  constructor
  · intro root b s e u hmem
    have hreq := (walkNode_pres b [] initialWalker root).2.2 (reqsOK_initial b)
    have hok := hreq (Request.updateTextLink s e u) hmem
    exact hok.2.2.2
  · decide

/-- Witness for C10: the link request emitted for destination `u` has a
non-empty URL. -/
theorem claim10_witness : "u".toList ≠ [] :=
  claim10_no_empty_link_url.1 urlLinkDoc 1 1 2 "u".toList (by decide)

end Gogcli
